import Mathlib

/-!
# Verification of the Badges command dispatch engine (badges/cmd.py)

A shallow embedding of the command dispatch and resolution core of the
EntySec/Badges repository: the registry of external commands
(`add_external`, `delete_external`, `add_shortcut`), unique-prefix
resolution (`verify_command`), argument validation (`verify_args`),
shortcut expansion and single-line dispatch (`onecmd`), and the REPL
control loop (`loop`).  Python dictionaries are modelled as
insertion-ordered association lists, Python exceptions as an explicit
fault type, and side effects as explicit event traces.  The theorems at
the end check the claims of the specification against these definitions.
-/

set_option maxHeartbeats 1000000

namespace Badges

/-! ## String helpers mirroring the Python primitives used by cmd.py -/

/-- Python `name[:n]` (slice of the first `n` code points). -/
def strTake (s : String) (n : Nat) : String := String.mk (s.data.take n)

/-- Python `s.startswith(p)`. -/
def strPrefixB (p s : String) : Bool := p.data.isPrefixOf s.data

/-- Python `s.lstrip(chars)`: remove leading characters that belong to `chars`. -/
def lstripSet (s chars : String) : String :=
  String.mk (s.data.dropWhile (fun c => c ∈ chars.data))

/-- Python whitespace, as used by `str.strip()` (ASCII fragment). -/
def pyWS (c : Char) : Bool :=
  c == ' ' || c == '\t' || c == '\n' || c == '\r' || c == '\x0b' || c == '\x0c'

/-- Python `s.strip()`. -/
def strStrip (s : String) : String :=
  String.mk (((s.data.dropWhile pyWS).reverse.dropWhile pyWS).reverse)

/-- Python `s.replace(pat, rep)`: leftmost, non-overlapping replacement of every
occurrence.  Fuel-indexed to make the recursion structural; callers pass
`fuel = s.length`.  All call sites in cmd.py use a nonempty pattern (`?0`, `?1`, ...). -/
def replaceAux (pat rep : List Char) : Nat → List Char → List Char
  | _, [] => []
  | 0, s => s
  | fuel + 1, c :: rest =>
    if pat ≠ [] ∧ pat.isPrefixOf (c :: rest) then
      rep ++ replaceAux pat rep fuel ((c :: rest).drop pat.length)
    else
      c :: replaceAux pat rep fuel rest

/-- Python `s.replace(pat, rep)` on `String`. -/
def strReplace (s pat rep : String) : String :=
  String.mk (replaceAux pat.data rep.data s.data.length s.data)

/-- Python `enumerate(l)` (starting at `n`). -/
def pyEnumFrom (n : Nat) : List α → List (Nat × α)
  | [] => []
  | a :: l => (n, a) :: pyEnumFrom (n + 1) l

/-- Python `enumerate(l)`. -/
def pyEnum (l : List α) : List (Nat × α) := pyEnumFrom 0 l

/-- The decimal digit characters. -/
def digitChar : Nat → Char
  | 0 => '0'
  | 1 => '1'
  | 2 => '2'
  | 3 => '3'
  | 4 => '4'
  | 5 => '5'
  | 6 => '6'
  | 7 => '7'
  | 8 => '8'
  | _ => '9'

/-- Decimal rendering of a natural number (what the Python f-string produces
for an index), fuel-indexed to keep the recursion structural. -/
def natReprAux : Nat → Nat → List Char
  | 0, _ => []
  | fuel + 1, n =>
    if n < 10 then [digitChar n]
    else natReprAux fuel (n / 10) ++ [digitChar (n % 10)]

/-- Python `str(n)` for a natural number, as a character list. -/
def pyNatStr (n : Nat) : List Char := natReprAux (n + 1) n

/-! ## The tokenizer: Python shlex.split

`shlex.split(line)` runs the POSIX-mode shlex lexer with
`whitespace_split=True` and comments disabled: tokens are separated by
whitespace; single quotes protect everything up to the closing quote;
double quotes protect everything except a backslash escaping a backslash
or a double quote; outside quotes a backslash escapes any single
character.  An unterminated quote or a trailing escape raises ValueError. -/

/-- The single-quote character (code point 39). -/
def squote : Char := Char.ofNat 39

/-- shlex whitespace characters. -/
def shWS (c : Char) : Bool := c == ' ' || c == '\t' || c == '\r' || c == '\n'

/-- shlex quote characters. -/
def isQuote (c : Char) : Bool := c == squote || c == '"'

/-- Lexer state of shlex: between tokens, inside a word, inside a quote,
or right after the escape character (remembering the state it came from:
`some q` when escaping inside quote `q`, `none` when escaping inside a word). -/
inductive ShState where
  | ws
  | word
  | quote (q : Char)
  | esc (fromQuote : Option Char)

/-- One pass of the shlex lexer over the remaining characters, carrying the
current state, the token accumulated so far, whether the current token saw a
quote or escape (a quoted empty token is still emitted), and the emitted
tokens in reverse order. -/
def shlexCore : List Char → ShState → List Char → Bool → List String →
    Except String (List String)
  | [], .ws, _, _, acc => .ok acc.reverse
  | [], .word, tok, quoted, acc =>
    if tok.isEmpty && !quoted then .ok acc.reverse
    else .ok ((String.mk tok) :: acc).reverse
  | [], .quote _, _, _, _ => .error "No closing quotation"
  | [], .esc _, _, _, _ => .error "No escaped character"
  | c :: cs, .ws, tok, quoted, acc =>
    if shWS c then shlexCore cs .ws tok quoted acc
    else if c == '\\' then shlexCore cs (.esc none) tok quoted acc
    else if isQuote c then shlexCore cs (.quote c) tok quoted acc
    else shlexCore cs .word (tok ++ [c]) quoted acc
  | c :: cs, .word, tok, quoted, acc =>
    if shWS c then
      if tok.isEmpty && !quoted then shlexCore cs .ws [] false acc
      else shlexCore cs .ws [] false ((String.mk tok) :: acc)
    else if isQuote c then shlexCore cs (.quote c) tok quoted acc
    else if c == '\\' then shlexCore cs (.esc none) tok quoted acc
    else shlexCore cs .word (tok ++ [c]) quoted acc
  | c :: cs, .quote q, tok, _, acc =>
    if c == q then shlexCore cs .word tok true acc
    else if c == '\\' && q == '"' then shlexCore cs (.esc (some q)) tok true acc
    else shlexCore cs (.quote q) (tok ++ [c]) true acc
  | c :: cs, .esc fromQuote, tok, _, acc =>
    match fromQuote with
    | some q =>
      -- inside a double quote only the quote itself and the backslash are
      -- escapable; otherwise the backslash is kept
      if c != '\\' && c != q then shlexCore cs (.quote q) (tok ++ ['\\', c]) true acc
      else shlexCore cs (.quote q) (tok ++ [c]) true acc
    | none => shlexCore cs .word (tok ++ [c]) true acc

/-- Python `shlex.split(s)`. -/
def shlexSplit (s : String) : Except String (List String) :=
  shlexCore s.data .ws [] false []

/-! ## Python dictionaries as insertion-ordered association lists -/

/-- Python `m[k]` lookup (`None`-safe form `m.get(k)`). -/
def dlookup {α : Type} (k : String) : List (String × α) → Option α
  | [] => none
  | (k₂, v) :: m => if k₂ = k then some v else dlookup k m

/-- Python `m[k] = v`: update the existing entry in place, else append. -/
def dinsert {α : Type} (k : String) (v : α) : List (String × α) → List (String × α)
  | [] => [(k, v)]
  | (k₂, v₂) :: m => if k₂ = k then (k, v) :: m else (k₂, v₂) :: dinsert k v m

/-- Python `m.pop(k, None)`: remove the entry for `k` when present. -/
def dpop {α : Type} (k : String) : List (String × α) → List (String × α)
  | [] => []
  | (k₂, v₂) :: m => if k₂ = k then m else (k₂, v₂) :: dpop k m

/-- Python `k in m` on a dictionary. -/
def dmem {α : Type} (k : String) (m : List (String × α)) : Bool :=
  (dlookup k m).isSome

/-- Python `m.update(l)`: assignments in order; later entries win. -/
def dupdate {α : Type} (m l : List (String × α)) : List (String × α) :=
  l.foldl (fun m e => dinsert e.1 e.2 m) m

/-- Decidable equality of tokenizer results, for concrete evaluations. -/
instance {α β : Type} [DecidableEq α] [DecidableEq β] : DecidableEq (Except α β) :=
  fun a b =>
  match a, b with
  | .ok x, .ok y => if h : x = y then .isTrue (by rw [h]) else .isFalse (by simp [h])
  | .error x, .error y =>
    if h : x = y then .isTrue (by rw [h]) else .isFalse (by simp [h])
  | .ok _, .error _ => .isFalse (by simp)
  | .error _, .ok _ => .isFalse (by simp)

/-! ## Data model

Exceptions, handler results, observable actions, the command descriptor
(`Command.info`) and the mutable state of `Cmd`. -/

/-- The Python exception classes appearing in cmd.py control flow.  `exc`
stands for any other `Exception` subclass (ValueError, TypeError, KeyError,
IndexError, ...); `nameErr` for the NameError family (UnboundLocalError);
`systemExit` is SystemExit which, like KeyboardInterrupt, derives from
BaseException only and is NOT caught by `except Exception`. -/
inductive Fault where
  | eofError
  | keyboardInterrupt
  | runtimeError (msg : String)
  | runtimeWarning (msg : String)
  | systemExit
  | nameErr (msg : String)
  | exc (msg : String)
deriving DecidableEq

/-- Contents of an argparse `Namespace`, kept abstract. -/
abbrev Parsed := List String

/-- The value a command handler (`Method`) is applied to: the raw token list
when the descriptor declares no Options, or the parsed namespace when it does. -/
inductive MArg where
  | raw (args : List String)
  | ns (p : Parsed)
deriving DecidableEq

/-- What one handler invocation does: return a value whose truthiness signals
a usage error, or raise an exception. -/
inductive HRes where
  | ret (usageError : Bool)
  | raise (f : Fault)

/-- The observable actions of the engine (rendering and handler invocation). -/
inductive Event where
  | printUsage (u : String)
  | printHelp (prog : String)
  | invoke (arg : MArg)
  | printError (msg : String)
  | printWarning (msg : String)
  | printEmpty
  | traceback
deriving DecidableEq

/-- The `Command.info` dictionary (cmd.py:87-99), i.e. the command descriptor.
The Options list and the argparse parser built from it are abstracted by
`hasOptions` (`bool(info[Options])`) and `parse` (what
`parser.parse_args(args[1:])` would return, `Except.error` standing for the
SystemExit argparse raises on bad options); the Complete provider by
`hasComplete`. -/
structure CmdInfo where
  Name : String := ""
  Category : String := ""
  Description : String := ""
  Usage : String := ""
  MinArgs : Int := 0
  hasOptions : Bool := false
  parse : List String → Except Unit Parsed := fun a => .ok a
  Method : Option (MArg → HRes) := none
  hasComplete : Bool := false
  Shorts : List (String × (String × String)) := []

/-- A completion-map value: Python `None`, the empty dict (falsy) or a
non-empty nested dict (truthy, abstract). -/
inductive CVal where
  | cnone
  | cempty
  | ctree (t : Nat)
deriving DecidableEq

/-- A value of the builtins table (cmd.py:186-195): a callable (modelled by the
events it emits and the fault it may raise) or a command-name string. -/
inductive BFunc where
  | fn (h : List String → List Event × Option Fault)
  | cmd (s : String)

/-- A `do_*` handler of an internal command, e.g. `do_exit` raises EOFError. -/
abbrev Internal := List String → List Event × Option Fault

/-- The mutable state of `Cmd`: internal command names with their handlers,
the external command dictionary, the shortcuts dictionary, the completion
dictionaries, and the builtins table. -/
structure CmdState where
  internal : List (String × Internal) := []
  external : List (String × CmdInfo) := []
  shorts : List (String × (String × String)) := []
  complete : List (String × CVal) := []
  dynamicComplete : List (String × Nat) := []
  builtins : List (String × BFunc) := []

/-! ## Registry operations -/

/-- Embeds `Cmd.delete_external` (cmd.py:235-243): pop the name from the external and
completion dictionaries; shortcuts are untouched. -/
def delete_external (st : CmdState) (name : String) : CmdState :=
  { st with
    external := dpop name st.external
    complete := dpop name st.complete }

/-- Embeds `Cmd.add_shortcut` (cmd.py:245-256). -/
def add_shortcut (st : CmdState) (a cmdLine desc : String) : CmdState :=
  { st with shorts := dinsert a (cmdLine, desc) st.shorts }

/-- One iteration of the loop of `Cmd.add_external` (cmd.py:266-281) for a
single descriptor: skip it when Method is unset; otherwise insert it by name,
merge its Shorts, register its dynamic completion, and normalise the (falsy)
fresh completion entry back to `None`. -/
def add_external_one (st : CmdState) (c : CmdInfo) : CmdState :=
  if c.Method.isNone then st
  else
    let st1 := { st with
      external := dinsert c.Name c st.external
      complete := dinsert c.Name CVal.cempty st.complete }
    let st2 := { st1 with shorts := dupdate st1.shorts c.Shorts }
    let st3 :=
      if c.hasComplete then
        { st2 with dynamicComplete := dinsert c.Name 0 st2.dynamicComplete }
      else st2
    match dlookup c.Name st3.complete with
    | some v =>
      if v = CVal.cnone || v = CVal.cempty then
        { st3 with complete := dinsert c.Name CVal.cnone st3.complete }
      else st3
    | none => st3

/-- Embeds `Cmd.add_external` (cmd.py:258-281). -/
def add_external (st : CmdState) (cs : List CmdInfo) : CmdState :=
  cs.foldl add_external_one st

/-! ## Resolution: Cmd.verify_command -/

/-- The prefix-map update of cmd.py:439-443 at one key: a fresh prefix maps to
the name producing it; a prefix already owned by a different name is marked
`None` (ambiguous). -/
def pstep (name : String) (m : List (String × Option String)) (p : String) :
    List (String × Option String) :=
  match dlookup p m with
  | none => dinsert p (some name) m
  | some v => if v = some name then m else dinsert p none m

/-- Embeds `[name[:i] for i in range(len(name) + 1)]`. -/
def prefixList (name : String) : List String :=
  (List.range (name.data.length + 1)).map (fun i => strTake name i)

/-- The `commands` prefix map built by `Cmd.verify_command` (cmd.py:433-443). -/
def buildCommands (ext : List (String × CmdInfo)) : List (String × Option String) :=
  ext.foldl (fun m e => (prefixList e.1).foldl (pstep e.1) m) []

/-- The second component returned by `Cmd.verify_command`: Python `None`,
a resolved command name, or the list of conflicting candidates. -/
inductive VCRes where
  | vnone
  | vname (s : String)
  | vconflict (l : List String)
deriving DecidableEq

/-- The conflict branch of `Cmd.verify_command` (cmd.py:453-459). -/
def conflictBranch (ext : List (String × CmdInfo)) (t : String) : Bool × VCRes :=
  let conflict := (ext.map Prod.fst).filter (fun n => strPrefixB t n)
  if t ∈ conflict then (true, .vname t) else (false, .vconflict conflict)

/-- Embeds `Cmd.verify_command` (cmd.py:425-459): resolve `args[0]` against the
external command names via the prefix map; `if result:` is Python truthiness,
so both `None` (ambiguous) and the empty string fall to the conflict branch. -/
def verify_command (ext : List (String × CmdInfo)) (args : List String) :
    Bool × VCRes :=
  let t := args.headD ""
  match dlookup t (buildCommands ext) with
  | none => (false, .vnone)
  | some (some s) => if s = "" then conflictBranch ext t else (true, .vname s)
  | some none => conflictBranch ext t

/-! ## Validation: Cmd.verify_args -/

/-- Embeds `Cmd.verify_args` (cmd.py:461-502): arity check, option parsing, handler
invocation, usage rendering.  Returns the emitted events and the fault, if
any, that escapes.  In the Options branch the whole body runs under
`except SystemExit: return`, so argparse failures and a handler raising
SystemExit are swallowed there; in the no-Options branch nothing is caught. -/
def verify_args (args : List String) (info : CmdInfo) : List Event × Option Fault :=
  if !info.hasOptions then
    if (args.length : Int) - 1 < info.MinArgs then
      ([Event.printUsage info.Usage], none)
    else
      match info.Method with
      | none => ([], some (Fault.exc "TypeError"))
      | some m =>
        match m (MArg.raw args) with
        | .ret true => ([Event.invoke (MArg.raw args), Event.printUsage info.Usage], none)
        | .ret false => ([Event.invoke (MArg.raw args)], none)
        | .raise f => ([Event.invoke (MArg.raw args)], some f)
  else
    if (args.length : Int) - 1 < info.MinArgs then
      ([Event.printHelp (args.headD "")], none)
    else
      match info.parse args.tail with
      | .error _ => ([], none)
      | .ok p =>
        match info.Method with
        | none => ([], some (Fault.exc "TypeError"))
        | some m =>
          match m (MArg.ns p) with
          | .ret true => ([Event.invoke (MArg.ns p), Event.printHelp (args.headD "")], none)
          | .ret false => ([Event.invoke (MArg.ns p)], none)
          | .raise f =>
            if f = Fault.systemExit then ([Event.invoke (MArg.ns p)], none)
            else ([Event.invoke (MArg.ns p)], some f)

/-! ## Dispatch: Cmd.onecmd -/

/-- The placeholder substitution loop of `Cmd.onecmd` (cmd.py:634-635):
`for i, arg in enumerate(args): command = command.replace(f?i, arg)`; the
pattern is the question mark followed by the decimal rendering of the index. -/
def expandTemplate (args : List String) (command : String) : String :=
  (pyEnum args).foldl
    (fun c ia => strReplace c (String.mk ('?' :: pyNatStr ia.1)) ia.2) command

/-- The shortcut expansion block of `Cmd.onecmd` (cmd.py:631-642): substitute
the placeholders, re-tokenize the resulting line with `shlex.split` (an error
there is NOT caught by onecmd), and drop every token still starting with `?`. -/
def expandShortcut (args : List String) (template : String) :
    Except String (List String) :=
  match shlexSplit (expandTemplate args template) with
  | .error e => .error e
  | .ok argv => .ok (argv.filter (fun a => !strPrefixB "?" a))

/-- Result of `Cmd.onecmd`: the returned line, or the fault that escaped. -/
inductive OnecmdRes where
  | ok (line : String)
  | fault (f : Fault)
deriving DecidableEq

/-- The builtin-symbol scan of `Cmd.onecmd` (cmd.py:610-626): walk the
builtins table; on a match, a callable builtin is dispatched and onecmd
returns, while a string builtin rewrites `args` and the scan CONTINUES over
the remaining entries.  `Sum.inl` carries the (possibly rewritten) args. -/
def builtinScan (line : String) : List (String × BFunc) → List String →
    List String ⊕ (List Event × OnecmdRes)
  | [], args => Sum.inl args
  | (b, f) :: rest, args =>
    let a0 := args.headD ""
    if strPrefixB b a0 then
      let first := lstripSet a0 b
      match f with
      | .fn h =>
        let r := h (if first ≠ "" then first :: args.tail else args.tail)
        match r.2 with
        | none => Sum.inr (r.1, .ok line)
        | some fa => Sum.inr (r.1, .fault fa)
      | .cmd s =>
        builtinScan line rest (if first ≠ "" then s :: first :: args.tail else s :: args.tail)
    else builtinScan line rest args

/-- Embeds `Cmd.onecmd` (cmd.py:594-662): tokenize, builtin scan, shortcut expansion,
internal dispatch, external resolution and dispatch, or failure reporting.
When `shlex.split` raises, the `except ValueError` branch prints a parse error
but does not return; the local `args` is then unbound and the following
`len(args)` raises an UnboundLocalError which escapes onecmd. -/
def onecmd (st : CmdState) (line : String) : List Event × OnecmdRes :=
  match shlexSplit line with
  | .error e =>
    ([Event.printError ("Error parsing command: " ++ e)], .fault (Fault.nameErr "args"))
  | .ok args0 =>
    if args0.length < 1 then ([], .ok line)
    else
      match builtinScan line st.builtins args0 with
      | Sum.inr r => r
      | Sum.inl args1 =>
        let a₁ := args1.headD ""
        let expanded : Except String (List String) :=
          if !dmem a₁ st.external && !(st.internal.map Prod.fst).contains a₁
              && dmem a₁ st.shorts then
            match dlookup a₁ st.shorts with
            | some short => expandShortcut args1 short.1
            | none => .ok args1
          else .ok args1
        match expanded with
        | .error e => ([], .fault (Fault.exc ("ValueError: " ++ e)))
        | .ok [] =>
          -- expansion produced no tokens: `args[0]` raises IndexError
          ([], .fault (Fault.exc "IndexError"))
        | .ok (a0 :: rest) =>
          if !dmem a0 st.external && (st.internal.map Prod.fst).contains a0 then
            match dlookup a0 st.internal with
            | some h =>
              let r := h (a0 :: rest)
              (r.1, match r.2 with | none => .ok line | some f => .fault f)
            | none => ([], .fault (Fault.exc "AttributeError"))
          else
            match verify_command st.external (a0 :: rest) with
            | (true, VCRes.vname name) =>
              let fixed := name :: rest
              match dlookup name st.external with
              | some command =>
                let r := verify_args fixed command
                (r.1, match r.2 with
                  | none => .ok (String.intercalate " " fixed)
                  | some f => .fault f)
              | none => ([], .fault (Fault.exc "KeyError"))
            | (true, _) =>
              -- unreachable: a successful resolution always carries a name
              ([], .fault (Fault.exc "unreachable"))
            | (false, res) =>
              let warn : List Event :=
                match res with
                | VCRes.vconflict l =>
                  [Event.printWarning ("Did you mean? " ++ String.intercalate ", " l)]
                | _ => []
              (warn ++ [Event.printError ("Unrecognized command: " ++ a0)], .ok line)

/-! ## The REPL: Cmd.loop -/

/-- What one round of prompting yields: a line, end-of-input (EOFError) or a
cancellation (KeyboardInterrupt). -/
inductive InEvent where
  | line (s : String)
  | eofSig
  | intSig

/-- How a finite run of the loop ends. -/
inductive LoopExit where
  | ranOut
  | cleanExit
  | fault (f : Fault)
deriving DecidableEq

/-- Embeds `Cmd.loop` (cmd.py:504-558) over a finite script of prompt outcomes.
Exception containment follows the Python handlers in order: EOFError breaks
cleanly, KeyboardInterrupt continues, RuntimeError and RuntimeWarning are
printed, `except Exception` prints a generic error plus a traceback and
continues; SystemExit matches none of them and escapes the loop. -/
def loopRun (st : CmdState) : List InEvent → List Event × LoopExit
  | [] => ([], .ranOut)
  | ev :: rest =>
    match ev with
    | .eofSig => ([Event.printEmpty], .cleanExit)
    | .intSig =>
      let k := loopRun st rest
      (Event.printEmpty :: k.1, k.2)
    | .line l =>
      let s := strStrip l
      if s = "" then loopRun st rest
      else
        let r := onecmd st s
        match r.2 with
        | .ok _ =>
          let k := loopRun st rest
          (r.1 ++ k.1, k.2)
        | .fault Fault.eofError => (r.1 ++ [Event.printEmpty], .cleanExit)
        | .fault Fault.keyboardInterrupt =>
          let k := loopRun st rest
          (r.1 ++ [Event.printEmpty] ++ k.1, k.2)
        | .fault (Fault.runtimeError m) =>
          let k := loopRun st rest
          (r.1 ++ [Event.printError m] ++ k.1, k.2)
        | .fault (Fault.runtimeWarning m) =>
          let k := loopRun st rest
          (r.1 ++ [Event.printWarning m] ++ k.1, k.2)
        | .fault Fault.systemExit => (r.1, .fault Fault.systemExit)
        | .fault (Fault.nameErr m) =>
          let k := loopRun st rest
          (r.1 ++ [Event.printError ("An error occurred: " ++ m ++ "!"), Event.traceback]
            ++ k.1, k.2)
        | .fault (Fault.exc m) =>
          let k := loopRun st rest
          (r.1 ++ [Event.printError ("An error occurred: " ++ m ++ "!"), Event.traceback]
            ++ k.1, k.2)

end Badges

namespace Badges

/-! ## Dictionary lemmas -/

theorem dlookup_dinsert {α : Type} (k q : String) (v : α) (m : List (String × α)) :
    dlookup q (dinsert k v m) = if k = q then some v else dlookup q m := by
  induction m with
  | nil => simp only [dinsert, dlookup]
  | cons e m ih =>
    obtain ⟨k₂, v₂⟩ := e
    by_cases h : k₂ = k
    · subst h
      by_cases h2 : k₂ = q <;> simp [dinsert, dlookup, h2]
    · by_cases h2 : k₂ = q
      · subst h2
        have : ¬ k = k₂ := fun hh => h hh.symm
        simp [dinsert, dlookup, h, this]
      · simp [dinsert, dlookup, h, h2, ih]

theorem dlookup_eq_none_iff {α : Type} (k : String) (m : List (String × α)) :
    dlookup k m = none ↔ k ∉ m.map Prod.fst := by
  induction m with
  | nil => simp [dlookup]
  | cons e m ih =>
    obtain ⟨k₂, v₂⟩ := e
    by_cases h : k₂ = k
    · subst h; simp [dlookup]
    · simp only [dlookup, if_neg h, List.map_cons, List.mem_cons, not_or, ih]
      exact ⟨fun hk => ⟨fun hh => h hh.symm, hk⟩, fun hk => hk.2⟩

theorem dpop_of_not_mem {α : Type} (k : String) (m : List (String × α))
    (h : k ∉ m.map Prod.fst) : dpop k m = m := by
  induction m with
  | nil => rfl
  | cons e m ih =>
    obtain ⟨k₂, v₂⟩ := e
    simp only [List.map_cons, List.mem_cons, not_or] at h
    have h1 : ¬ k₂ = k := fun hh => h.1 hh.symm
    simp [dpop, h1, ih h.2]

theorem not_mem_keys_dpop {α : Type} (k : String) (m : List (String × α))
    (h : (m.map Prod.fst).Nodup) : k ∉ (dpop k m).map Prod.fst := by
  induction m with
  | nil => simp [dpop]
  | cons e m ih =>
    obtain ⟨k₂, v₂⟩ := e
    simp only [List.map_cons, List.nodup_cons] at h
    by_cases hk : k₂ = k
    · subst hk
      simpa [dpop] using h.1
    · simp only [dpop, if_neg hk, List.map_cons, List.mem_cons, not_or]
      exact ⟨fun hh => hk hh.symm, ih h.2⟩

theorem dlookup_dpop_self {α : Type} (k : String) (m : List (String × α))
    (h : (m.map Prod.fst).Nodup) : dlookup k (dpop k m) = none :=
  (dlookup_eq_none_iff k _).2 (not_mem_keys_dpop k m h)

theorem dlookup_dpop_ne {α : Type} (k q : String) (m : List (String × α))
    (h : q ≠ k) : dlookup q (dpop k m) = dlookup q m := by
  induction m with
  | nil => rfl
  | cons e m ih =>
    obtain ⟨k₂, v₂⟩ := e
    by_cases hk : k₂ = k
    · subst hk
      have : ¬ k₂ = q := fun hh => h (hh.symm)
      simp [dpop, dlookup, this]
    · by_cases hq : k₂ = q
      · subst hq
        simp [dpop, dlookup, hk, h]
      · simp [dpop, dlookup, hk, hq, ih]

theorem dpop_dpop {α : Type} (k : String) (m : List (String × α))
    (h : (m.map Prod.fst).Nodup) : dpop k (dpop k m) = dpop k m :=
  dpop_of_not_mem k _ (not_mem_keys_dpop k m h)

/-- The LAST binding of key `a` in the list `l`, if any. -/
def lastOf {α : Type} (a : String) : List (String × α) → Option α
  | [] => none
  | (k, v) :: l =>
    match lastOf a l with
    | some w => some w
    | none => if k = a then some v else none

/-- Later entries of the update win: the final binding of an alias is its last
occurrence in `l`, falling back to the original map. -/
theorem dlookup_dupdate {α : Type} (m l : List (String × α)) (a : String) :
    dlookup a (dupdate m l) =
      match lastOf a l with
      | some v => some v
      | none => dlookup a m := by
  induction l generalizing m with
  | nil => simp [dupdate, lastOf]
  | cons e l ih =>
    obtain ⟨k, v⟩ := e
    have hstep : dupdate m ((k, v) :: l) = dupdate (dinsert k v m) l := rfl
    rw [hstep, ih, dlookup_dinsert]
    cases hf : lastOf a l with
    | some w => simp [lastOf, hf]
    | none =>
      by_cases ha : k = a <;> simp [lastOf, hf, ha]

end Badges

namespace Badges

/-! ## Claim C3: arity failure renders usage and never invokes the handler -/

/-- C3: for every descriptor with minimum arity `MinArgs` and every argument
list whose length minus one is below it, `verify_args` renders the usage text
(no Options) or the argparse help (Options declared) and never invokes the
command handler. -/
theorem C3_arity_failure_never_invokes
    (args : List String) (info : CmdInfo)
    (h : (args.length : Int) - 1 < info.MinArgs) :
    verify_args args info =
      ((if info.hasOptions then [Event.printHelp (args.headD "")]
        else [Event.printUsage info.Usage]), none) ∧
    ∀ a, Event.invoke a ∉ (verify_args args info).1 := by
  have h1 : verify_args args info =
      ((if info.hasOptions then [Event.printHelp (args.headD "")]
        else [Event.printUsage info.Usage]), none) := by
    unfold verify_args
    cases hOpt : info.hasOptions <;> simp [h, hOpt]
  refine ⟨h1, ?_⟩
  rw [h1]
  cases hOpt : info.hasOptions <;> simp

/-- A concrete descriptor with `MinArgs = 2` and a handler. -/
def c3Info : CmdInfo :=
  { Name := "c", Usage := "c <a> <b>", MinArgs := 2,
    Method := some (fun _ => .ret false) }

theorem C3_arity_failure_never_invokes_witness :
    verify_args ["c", "x"] c3Info = ([Event.printUsage "c <a> <b>"], none) ∧
    ∀ a, Event.invoke a ∉ (verify_args ["c", "x"] c3Info).1 := by
  have h := C3_arity_failure_never_invokes ["c", "x"] c3Info (by decide)
  exact ⟨h.1, h.2⟩

/-! ## Claim C6: passing checks invoke the handler; truthy return renders usage -/

/-- C6: when the arity check passes (and, with Options declared, option
parsing succeeds), the handler is invoked on the arguments (raw args without
Options, the parsed namespace with them), and a truthy handler return makes
`verify_args` render the usage or help text after the invocation. -/
theorem C6_handler_invoked_usage_on_truthy
    (args : List String) (info : CmdInfo) (m : MArg → HRes)
    (hm : info.Method = some m)
    (h : ¬ ((args.length : Int) - 1 < info.MinArgs)) :
    (info.hasOptions = false →
      Event.invoke (MArg.raw args) ∈ (verify_args args info).1 ∧
      (m (MArg.raw args) = HRes.ret true →
        (verify_args args info).1 =
          [Event.invoke (MArg.raw args), Event.printUsage info.Usage])) ∧
    (∀ p, info.hasOptions = true → info.parse args.tail = Except.ok p →
      Event.invoke (MArg.ns p) ∈ (verify_args args info).1 ∧
      (m (MArg.ns p) = HRes.ret true →
        (verify_args args info).1 =
          [Event.invoke (MArg.ns p), Event.printHelp (args.headD "")])) := by
  constructor
  · intro hOpt
    unfold verify_args
    simp only [hOpt, Bool.not_false, if_true, if_neg h, hm]
    cases hr : m (MArg.raw args) with
    | ret b => cases b <;> simp [hr]
    | raise f => simp [hr]
  · intro p hOpt hp
    unfold verify_args
    simp only [hOpt, Bool.not_true, if_false, if_neg h, hp, hm]
    cases hr : m (MArg.ns p) with
    | ret b => cases b <;> simp [hr]
    | raise f =>
      by_cases hf : f = Fault.systemExit <;> simp [hr, hf]

/-- A concrete descriptor whose handler signals a usage error. -/
def c6Info : CmdInfo :=
  { Name := "c", Usage := "c [args]", MinArgs := 0,
    Method := some (fun _ => .ret true) }

theorem C6_handler_invoked_usage_on_truthy_witness :
    Event.invoke (MArg.raw ["c"]) ∈ (verify_args ["c"] c6Info).1 ∧
    (verify_args ["c"] c6Info).1 =
      [Event.invoke (MArg.raw ["c"]), Event.printUsage c6Info.Usage] := by
  have h := C6_handler_invoked_usage_on_truthy ["c"] c6Info
    (fun _ => .ret true) rfl (by decide)
  exact ⟨(h.1 rfl).1, (h.1 rfl).2 rfl⟩

/-! ## Claim C7: add_external skips disabled descriptors, inserts and merges -/

/-- For a descriptor with a handler, one `add_external` step inserts the
descriptor under its Name and merges its Shorts; the remaining fields of the
step only touch the completion dictionaries. -/
theorem add_external_one_fields (st : CmdState) (c : CmdInfo)
    (hsome : c.Method.isNone = false) :
    (add_external_one st c).external = dinsert c.Name c st.external ∧
    (add_external_one st c).shorts = dupdate st.shorts c.Shorts := by
  unfold add_external_one
  rw [hsome]
  simp only [Bool.false_eq_true, if_false]
  constructor <;> (repeat' split) <;> rfl

/-- C7: `add_external` leaves the whole state unchanged for a descriptor with
no handler; for a descriptor with a handler it inserts/overwrites the external
entry under its Name and merges its Shorts into the shortcut dictionary with
later entries winning on alias collision (characterised by `lastOf`); and the
fold decomposes over list concatenation, so later registrations win overall. -/
theorem C7_add_external_spec (st : CmdState) (c : CmdInfo) :
    (c.Method = none → add_external st [c] = st) ∧
    (∀ m, c.Method = some m →
      (add_external st [c]).external = dinsert c.Name c st.external ∧
      (add_external st [c]).shorts = dupdate st.shorts c.Shorts ∧
      ∀ a, dlookup a (add_external st [c]).shorts =
        match lastOf a c.Shorts with
        | some v => some v
        | none => dlookup a st.shorts) ∧
    (∀ cs cs₂, add_external st (cs ++ cs₂) =
      add_external (add_external st cs) cs₂) := by
  have hone : add_external st [c] = add_external_one st c := rfl
  refine ⟨?_, ?_, ?_⟩
  · intro hno
    simp [add_external, add_external_one, hno]
  · intro m hm
    have hsome : c.Method.isNone = false := by rw [hm]; rfl
    have hf := add_external_one_fields st c hsome
    rw [hone]
    refine ⟨hf.1, hf.2, ?_⟩
    intro a
    rw [hf.2, dlookup_dupdate]
    cases lastOf a c.Shorts <;> rfl
  · intro cs cs₂
    simp [add_external, List.foldl_append]

end Badges

namespace Badges

/-- A concrete descriptor with a handler and two shortcuts on the same alias. -/
def c7Info : CmdInfo :=
  { Name := "scan", Method := some (fun _ => .ret false),
    Shorts := [("s", ("scan ?1", "quick scan")), ("s", ("scan -a", "full scan"))] }

theorem C7_add_external_spec_witness :
    (add_external {} [c7Info]).external =
      dinsert "scan" c7Info ([] : List (String × CmdInfo)) ∧
    dlookup "s" (add_external {} [c7Info]).shorts = some ("scan -a", "full scan") := by
  have h := C7_add_external_spec {} c7Info
  have h2 := h.2.1 (fun _ => .ret false) rfl
  refine ⟨h2.1, ?_⟩
  rw [h2.2.2 "s"]
  rfl

/-! ## Claim C8: delete_external removes the entry, leaves shortcuts, idempotent -/

/-- C8: `delete_external` removes the name from the external and completion
dictionaries only: shortcuts (and the rest of the state) are untouched, other
external entries are preserved, a name absent from both dictionaries makes the
call a no-op, and removal is idempotent. -/
theorem C8_delete_external_spec (st : CmdState) (name : String) :
    (delete_external st name).shorts = st.shorts ∧
    (delete_external st name).internal = st.internal ∧
    (delete_external st name).dynamicComplete = st.dynamicComplete ∧
    ((st.external.map Prod.fst).Nodup →
      dlookup name (delete_external st name).external = none) ∧
    (∀ q, q ≠ name →
      dlookup q (delete_external st name).external = dlookup q st.external) ∧
    (dmem name st.external = false → dmem name st.complete = false →
      delete_external st name = st) ∧
    ((st.external.map Prod.fst).Nodup → (st.complete.map Prod.fst).Nodup →
      delete_external (delete_external st name) name = delete_external st name) := by
  refine ⟨rfl, rfl, rfl, ?_, ?_, ?_, ?_⟩
  · intro h
    exact dlookup_dpop_self name st.external h
  · intro q hq
    exact dlookup_dpop_ne name q st.external hq
  · intro h1 h2
    have e1 : dlookup name st.external = none := by
      cases hd : dlookup name st.external with
      | none => rfl
      | some v => rw [dmem, hd] at h1; simp at h1
    have e2 : dlookup name st.complete = none := by
      cases hd : dlookup name st.complete with
      | none => rfl
      | some v => rw [dmem, hd] at h2; simp at h2
    have p1 := dpop_of_not_mem name st.external ((dlookup_eq_none_iff _ _).1 e1)
    have p2 := dpop_of_not_mem name st.complete ((dlookup_eq_none_iff _ _).1 e2)
    unfold delete_external
    rw [p1, p2]
  · intro h1 h2
    unfold delete_external
    simp only
    rw [dpop_dpop name st.external h1, dpop_dpop name st.complete h2]

/-- A concrete state with one external command, its completion entry, and a
shortcut referring to it. -/
def c8State : CmdState :=
  { external := [("scan", c7Info)],
    complete := [("scan", CVal.cnone)],
    shorts := [("s", ("scan -a", "full scan"))] }

theorem C8_delete_external_spec_witness :
    (delete_external c8State "scan").shorts = c8State.shorts ∧
    dlookup "scan" (delete_external c8State "scan").external = none ∧
    delete_external c8State "zzz" = c8State ∧
    delete_external (delete_external c8State "scan") "scan" =
      delete_external c8State "scan" := by
  have h1 := C8_delete_external_spec c8State "scan"
  have h2 := C8_delete_external_spec c8State "zzz"
  exact ⟨h1.1, h1.2.2.2.1 (by decide), h2.2.2.2.2.2.1 (by decide) (by decide),
    h1.2.2.2.2.2.2 (by decide) (by decide)⟩

end Badges

namespace Badges

/-! ## Resolution lemmas: characterising the prefix map of verify_command -/

/-- The value the prefix map holds at a key after one `pstep` touching it:
fresh keys get the name, keys owned by another name become `none`. -/
def pupd (o : Option (Option String)) (name : String) : Option String :=
  match o with
  | none => some name
  | some v => if v = some name then v else none

theorem dlookup_pstep_self (name : String) (m : List (String × Option String))
    (p : String) : dlookup p (pstep name m p) = some (pupd (dlookup p m) name) := by
  unfold pstep pupd
  cases h : dlookup p m with
  | none => simp [dlookup_dinsert]
  | some v =>
    by_cases hv : v = some name
    · simp [hv, h]
    · simp [hv, dlookup_dinsert]

theorem dlookup_pstep_ne (name : String) (m : List (String × Option String))
    (p q : String) (h : p ≠ q) : dlookup q (pstep name m p) = dlookup q m := by
  unfold pstep
  cases hm : dlookup p m with
  | none => simp [dlookup_dinsert, h]
  | some v => by_cases hv : v = some name <;> simp [hv, dlookup_dinsert, h]

theorem pupd_idem (o : Option (Option String)) (name : String) :
    pupd (some (pupd o name)) name = pupd o name := by
  cases o with
  | none => simp [pupd]
  | some v => by_cases hv : v = some name <;> simp [pupd, hv]

/-- Folding `pstep` over a list of keys only affects the keys in the list, and
hitting a key several times is the same as hitting it once (`pupd_idem`). -/
theorem dlookup_foldl_pstep (name : String) (l : List String)
    (m : List (String × Option String)) (q : String) :
    dlookup q (l.foldl (pstep name) m) =
      if q ∈ l then some (pupd (dlookup q m) name) else dlookup q m := by
  induction l generalizing m with
  | nil => simp
  | cons p l ih =>
    rw [List.foldl_cons, ih]
    by_cases hpq : p = q
    · subst hpq
      by_cases hq : p ∈ l
      · simp [hq, dlookup_pstep_self, pupd_idem]
      · simp [hq, dlookup_pstep_self]
    · rw [dlookup_pstep_ne name m p q hpq]
      by_cases hql : q ∈ l
      · rw [if_pos hql, if_pos (List.mem_cons_of_mem p hql)]
      · rw [if_neg hql, if_neg
          (fun hh => (List.mem_cons.1 hh).elim (fun he => hpq he.symm) hql)]

/-- Membership in the prefix list is exactly the prefix relation. -/
theorem mem_prefixList_iff (p name : String) :
    p ∈ prefixList name ↔ strPrefixB p name = true := by
  rw [strPrefixB, List.isPrefixOf_iff_prefix]
  constructor
  · intro h
    rw [prefixList] at h
    obtain ⟨i, hi, hp⟩ := List.mem_map.1 h
    rw [← hp]
    exact List.take_prefix i name.data
  · intro h
    have hlen : p.data.length ≤ name.data.length := h.length_le
    have htake : p.data = name.data.take p.data.length :=
      List.prefix_iff_eq_take.1 h
    rw [prefixList]
    refine List.mem_map.2 ⟨p.data.length, ?_, ?_⟩
    · exact List.mem_range.2 (Nat.lt_succ_of_le hlen)
    · rw [strTake, ← htake]

/-- The names of `ext` that the token is a prefix of, in registration order:
this is exactly the conflict list of cmd.py:454. -/
def owners (q : String) (ns : List String) : List String :=
  ns.filter (fun n => strPrefixB q n)

/-- The value of the prefix map at a key, expressed as a fold over the names. -/
def ownerFold (q : String) (ns : List String) : Option (Option String) :=
  ns.foldl (fun o n => if strPrefixB q n then some (pupd o n) else o) none

theorem dlookup_buildCommands (ext : List (String × CmdInfo)) (q : String) :
    dlookup q (buildCommands ext) = ownerFold q (ext.map Prod.fst) := by
  suffices h : ∀ m, dlookup q
      (ext.foldl (fun m e => (prefixList e.1).foldl (pstep e.1) m) m) =
      (ext.map Prod.fst).foldl
        (fun o n => if strPrefixB q n then some (pupd o n) else o) (dlookup q m) by
    have h2 := h []
    rw [buildCommands, ownerFold, h2]
    rfl
  induction ext with
  | nil => intro m; simp
  | cons e ext ih =>
    intro m
    rw [List.foldl_cons, ih, List.map_cons, List.foldl_cons]
    have hl := dlookup_foldl_pstep e.1 (prefixList e.1) m q
    rw [hl]
    by_cases hp : strPrefixB q e.1 = true
    · rw [if_pos ((mem_prefixList_iff q e.1).2 hp), if_pos hp]
    · rw [if_neg (fun hh => hp ((mem_prefixList_iff q e.1).1 hh)), if_neg hp]

/-- The guarded fold equals the fold over the filtered owner list. -/
theorem ownerFold_eq_filter (q : String) (ns : List String) :
    ownerFold q ns = (owners q ns).foldl (fun o n => some (pupd o n)) none := by
  rw [ownerFold, owners]
  generalize (none : Option (Option String)) = o
  induction ns generalizing o with
  | nil => simp
  | cons n ns ih =>
    by_cases hp : strPrefixB q n = true
    · rw [List.foldl_cons, if_pos hp, List.filter_cons_of_pos hp, List.foldl_cons, ih]
    · rw [List.foldl_cons, if_neg hp,
        List.filter_cons_of_neg (by simpa using hp), ih]

/-- Once the prefix map holds the ambiguity marker, it keeps it. -/
theorem foldl_pupd_marker (l : List String) :
    l.foldl (fun o n => some (pupd o n)) (some none) = some none := by
  induction l with
  | nil => rfl
  | cons n l ih =>
    rw [List.foldl_cons]
    have : pupd (some none) n = none := by simp [pupd]
    rw [this, ih]

/-- The prefix map at a token: `none` when no name owns the prefix, the unique
owner when exactly one does, and the ambiguity marker `some none` when two or
more distinct names do. -/
theorem ownerFold_spec (q : String) (ns : List String) (hnd : ns.Nodup) :
    ownerFold q ns =
      match owners q ns with
      | [] => none
      | [n] => some (some n)
      | _ :: _ :: _ => some none := by
  rw [ownerFold_eq_filter]
  have hnd2 : (owners q ns).Nodup := List.Nodup.filter _ hnd
  cases h : owners q ns with
  | nil => rfl
  | cons n l =>
    rw [h] at hnd2
    cases l with
    | nil => simp [pupd]
    | cons n₂ l₂ =>
      have hne : n₂ ≠ n := by
        intro hh
        rw [List.nodup_cons] at hnd2
        exact hnd2.1 (hh ▸ List.mem_cons_self n₂ l₂)
      rw [List.foldl_cons, List.foldl_cons]
      have s1 : pupd none n = some n := rfl
      have hne2 : ¬ n = n₂ := fun hh => hne hh.symm
      have s2 : pupd (some (some n)) n₂ = none := by
        simp [pupd, hne2]
      rw [s1, s2, foldl_pupd_marker]

end Badges

namespace Badges

/-! ## Claims C1 and C2: unique-prefix resolution -/

/-- Registered set with one name a proper prefix of another. -/
def bdExt : List (String × CmdInfo) :=
  [("build", { Name := "build" }), ("builder", { Name := "builder" })]

/-- Registered set with two names sharing the prefix `b`. -/
def bbExt : List (String × CmdInfo) :=
  [("build", { Name := "build" }), ("bug", { Name := "bug" })]

/-- C1: for every set of distinct registered external names, a token that is
itself one of the names always resolves to itself, even when it is a proper
prefix of another name: either it is the unique owner of its own prefix, or
the conflict branch detects the exact match and wins over the ambiguity. -/
theorem C1_exact_name_resolves_to_itself
    (ext : List (String × CmdInfo)) (t : String) (rest : List String)
    (hnd : (ext.map Prod.fst).Nodup) (ht : t ∈ ext.map Prod.fst) :
    verify_command ext (t :: rest) = (true, VCRes.vname t) := by
  have hpre : strPrefixB t t = true :=
    List.isPrefixOf_iff_prefix.2 (List.prefix_refl _)
  have hto : t ∈ owners t (ext.map Prod.fst) := List.mem_filter.2 ⟨ht, hpre⟩
  have hto2 : t ∈ (ext.map Prod.fst).filter (fun n => strPrefixB t n) := hto
  have hlook := dlookup_buildCommands ext t
  rw [ownerFold_spec t _ hnd] at hlook
  cases how : owners t (ext.map Prod.fst) with
  | nil => rw [how] at hto; cases hto
  | cons n l =>
    cases l with
    | nil =>
      rw [how] at hto
      have hnt : t = n := List.mem_singleton.1 hto
      subst hnt
      have hlv : dlookup t (buildCommands ext) = some (some t) := by
        rw [hlook, how]
      simp only [verify_command, List.headD_cons]
      rw [hlv]
      show (if t = "" then conflictBranch ext t else (true, VCRes.vname t)) =
        (true, VCRes.vname t)
      by_cases ht0 : t = ""
      · rw [if_pos ht0]
        show conflictBranch ext t = (true, VCRes.vname t)
        simp only [conflictBranch]
        rw [if_pos hto2]
      · rw [if_neg ht0]
    | cons n₂ l₂ =>
      have hlv : dlookup t (buildCommands ext) = some none := by
        rw [hlook, how]
      simp only [verify_command, List.headD_cons]
      rw [hlv]
      show conflictBranch ext t = (true, VCRes.vname t)
      simp only [conflictBranch]
      rw [if_pos hto2]

theorem C1_exact_name_resolves_to_itself_witness :
    verify_command bdExt ["build"] = (true, VCRes.vname "build") :=
  C1_exact_name_resolves_to_itself bdExt "build" [] (by decide) (by decide)

/-- C2: a token that is a prefix of two or more distinct registered names and
is not itself a name fails to resolve, reporting exactly the registered names
that start with it (in registration order); and on the concrete registered set
of the claim, `b` is ambiguous with candidates build and bug, `bu` likewise,
`bui` resolves uniquely to build, and `bug` resolves exactly to itself. -/
theorem C2_ambiguous_prefix_reports_candidates :
    (∀ (ext : List (String × CmdInfo)) (t : String) (rest : List String)
      (n₁ n₂ : String),
      (ext.map Prod.fst).Nodup →
      n₁ ∈ ext.map Prod.fst → n₂ ∈ ext.map Prod.fst → n₁ ≠ n₂ →
      strPrefixB t n₁ = true → strPrefixB t n₂ = true →
      t ∉ ext.map Prod.fst →
      verify_command ext (t :: rest) =
        (false, VCRes.vconflict
          ((ext.map Prod.fst).filter (fun n => strPrefixB t n)))) ∧
    verify_command bbExt ["b"] = (false, VCRes.vconflict ["build", "bug"]) ∧
    verify_command bbExt ["bu"] = (false, VCRes.vconflict ["build", "bug"]) ∧
    verify_command bbExt ["bui"] = (true, VCRes.vname "build") ∧
    verify_command bbExt ["bug"] = (true, VCRes.vname "bug") := by
  refine ⟨?_, by decide, by decide, by decide, by decide⟩
  intro ext t rest n₁ n₂ hnd h1 h2 hne hp1 hp2 hnotin
  have ho1 : n₁ ∈ owners t (ext.map Prod.fst) := List.mem_filter.2 ⟨h1, hp1⟩
  have ho2 : n₂ ∈ owners t (ext.map Prod.fst) := List.mem_filter.2 ⟨h2, hp2⟩
  have hnotc : t ∉ (ext.map Prod.fst).filter (fun n => strPrefixB t n) :=
    fun hh => hnotin (List.mem_filter.1 hh).1
  have hlook := dlookup_buildCommands ext t
  rw [ownerFold_spec t _ hnd] at hlook
  cases how : owners t (ext.map Prod.fst) with
  | nil => rw [how] at ho1; cases ho1
  | cons x l =>
    cases l with
    | nil =>
      rw [how] at ho1 ho2
      have e1 : n₁ = x := List.mem_singleton.1 ho1
      have e2 : n₂ = x := List.mem_singleton.1 ho2
      exact absurd (e1.trans e2.symm) hne
    | cons x₂ l₂ =>
      have hlv : dlookup t (buildCommands ext) = some none := by
        rw [hlook, how]
      simp only [verify_command, List.headD_cons]
      rw [hlv]
      show conflictBranch ext t =
        (false, VCRes.vconflict ((ext.map Prod.fst).filter (fun n => strPrefixB t n)))
      simp only [conflictBranch]
      rw [if_neg hnotc]

theorem C2_ambiguous_prefix_reports_candidates_witness :
    verify_command bbExt ["b"] =
      (false, VCRes.vconflict
        ((bbExt.map Prod.fst).filter (fun n => strPrefixB "b" n))) :=
  C2_ambiguous_prefix_reports_candidates.1 bbExt "b" [] "build" "bug"
    (by decide) (by decide) (by decide) (by decide) (by decide) (by decide)
    (by decide)

end Badges

namespace Badges

/-! ## Claim C5: fault containment of the REPL loop -/

/-- A command whose handler raises SystemExit (e.g. calls sys.exit), with no
Options declared, so the invocation is not wrapped in a try block. -/
def boomInfo : CmdInfo :=
  { Name := "boom", Method := some (fun _ => HRes.raise Fault.systemExit) }

/-- A state with only the `boom` command registered. -/
def boomState : CmdState := { external := [("boom", boomInfo)] }

/-- C5 counterexample: SystemExit raised by a handler while processing one
line is not EOFError, yet it escapes `loop()` and terminates the run — the
second scripted line is never processed, refuting the claim that only the
termination signal can propagate out of the loop. -/
theorem C5_counterexample :
    loopRun boomState [InEvent.line "boom", InEvent.line "boom"] =
      ([Event.invoke (MArg.raw ["boom"])], LoopExit.fault Fault.systemExit) ∧
    Fault.systemExit ≠ Fault.eofError := by
  constructor
  · decide
  · decide

/-- C5 amended: the loop contains every fault of a processed line except
SystemExit — a finite run either is still looping, ends cleanly (EOFError),
or propagates SystemExit, and a cancellation signal aborts only the current
line, the rest of the script being processed unchanged. -/
theorem C5_amended_loop_containment :
    (∀ (st : CmdState) (evs : List InEvent) (f : Fault),
      (loopRun st evs).2 = LoopExit.fault f → f = Fault.systemExit) ∧
    (∀ (st : CmdState) (rest : List InEvent),
      loopRun st (InEvent.intSig :: rest) =
        (Event.printEmpty :: (loopRun st rest).1, (loopRun st rest).2)) := by
  constructor
  · intro st evs
    induction evs with
    | nil => intro f h; simp [loopRun] at h
    | cons ev rest ih =>
      intro f h
      cases ev with
      | eofSig => simp [loopRun] at h
      | intSig =>
        simp only [loopRun] at h
        exact ih f h
      | line l =>
        simp only [loopRun] at h
        by_cases hs : strStrip l = ""
        · rw [if_pos hs] at h
          exact ih f h
        · rw [if_neg hs] at h
          cases hr : (onecmd st (strStrip l)).2 with
          | ok s =>
            rw [hr] at h
            simp at h
            exact ih f h
          | fault fa =>
            rw [hr] at h
            cases fa <;> simp at h <;> first
              | exact ih f h
              | exact h.symm
  · intro st rest
    rfl

theorem C5_amended_loop_containment_witness :
    (loopRun boomState [InEvent.line "boom"]).2 =
      LoopExit.fault Fault.systemExit ∧
    Fault.systemExit = Fault.systemExit :=
  ⟨by decide,
    C5_amended_loop_containment.1 boomState [InEvent.line "boom"]
      Fault.systemExit (by decide)⟩

/-! ## Claim C9: a tokenizer error leaves args unbound -/

/-- C9: on a line the shell tokenizer rejects, onecmd prints the parse error
but then raises the unbound-local fault (the parse-error branch does not
return), and such a line is recovered only by the catch-all handler of the
loop, which prints a generic error plus a traceback and continues with the
next line. -/
theorem C9_parse_error_unbound_args
    (st : CmdState) (l e : String)
    (he : shlexSplit l = Except.error e) :
    onecmd st l =
      ([Event.printError ("Error parsing command: " ++ e)],
        OnecmdRes.fault (Fault.nameErr "args")) ∧
    (∀ rest, strStrip l = l → l ≠ "" →
      loopRun st (InEvent.line l :: rest) =
        ([Event.printError ("Error parsing command: " ++ e),
          Event.printError ("An error occurred: " ++ "args" ++ "!"),
          Event.traceback] ++ (loopRun st rest).1,
          (loopRun st rest).2)) := by
  have h1 : onecmd st l =
      ([Event.printError ("Error parsing command: " ++ e)],
        OnecmdRes.fault (Fault.nameErr "args")) := by
    unfold onecmd
    rw [he]
  refine ⟨h1, ?_⟩
  intro rest hs hne
  simp only [loopRun]
  rw [hs, if_neg hne, h1]
  rfl

theorem C9_parse_error_unbound_args_witness :
    onecmd boomState "scan \"x" =
      ([Event.printError ("Error parsing command: " ++ "No closing quotation")],
        OnecmdRes.fault (Fault.nameErr "args")) ∧
    loopRun boomState [InEvent.line "scan \"x"] =
      ([Event.printError ("Error parsing command: " ++ "No closing quotation"),
        Event.printError ("An error occurred: " ++ "args" ++ "!"),
        Event.traceback] ++ (loopRun boomState []).1,
        (loopRun boomState []).2) := by
  have h := C9_parse_error_unbound_args boomState "scan \"x"
    "No closing quotation" (by decide)
  exact ⟨h.1, h.2 [] (by decide) (by decide)⟩

/-! ## Claim C10: ambiguous resolution emits both the hint and the error -/

/-- When no builtin symbol matches the head token, the builtin scan leaves the
args unchanged. -/
theorem builtinScan_no_match (line : String) (bs : List (String × BFunc))
    (args : List String)
    (h : ∀ bf ∈ bs, strPrefixB bf.1 (args.headD "") = false) :
    builtinScan line bs args = Sum.inl args := by
  induction bs with
  | nil => rfl
  | cons bf bs ih =>
    have hb := h bf (List.mem_cons_self _ _)
    simp only [builtinScan, hb]
    simpa using ih (fun x hx => h x (List.mem_cons_of_mem _ hx))

/-- C10: when the head token reaches resolution (no builtin symbol matches,
it is not internal, not a shortcut) and resolution fails with a candidate
list, onecmd emits BOTH the did-you-mean warning listing the candidates and
the unrecognized-command error, because `default` runs on every resolution
failure. -/
theorem C10_ambiguous_failure_emits_both
    (st : CmdState) (l t : String) (rest cl : List String)
    (htok : shlexSplit l = Except.ok (t :: rest))
    (hb : ∀ bf ∈ st.builtins, strPrefixB bf.1 t = false)
    (hint : (st.internal.map Prod.fst).contains t = false)
    (hsh : dmem t st.shorts = false)
    (hvc : verify_command st.external (t :: rest) = (false, VCRes.vconflict cl)) :
    onecmd st l =
      ([Event.printWarning ("Did you mean? " ++ String.intercalate ", " cl),
        Event.printError ("Unrecognized command: " ++ t)], OnecmdRes.ok l) := by
  have hbs := builtinScan_no_match l st.builtins (t :: rest) (by simpa using hb)
  simp [onecmd, htok, hbs, hsh, hint, hvc]
  intro _ x hx
  exact absurd (List.mem_map_of_mem Prod.fst hx) (by simpa using hint)

/-- A state with the two conflicting commands and nothing else. -/
def c10State : CmdState := { external := bbExt }

theorem C10_ambiguous_failure_emits_both_witness :
    onecmd c10State "b" =
      ([Event.printWarning "Did you mean? build, bug",
        Event.printError "Unrecognized command: b"], OnecmdRes.ok "b") := by
  have h := C10_ambiguous_failure_emits_both c10State "b" "b" [] ["build", "bug"]
    (by decide) (by simp [c10State]) (by decide) (by decide) (by decide)
  exact h.trans (by decide)

end Badges

namespace Badges

/-! ## Claim C4, part 1: properties of the replacement primitive -/

/-- Embeds `strReplace` at the character level, the fuel instantiated to the length. -/
def replaceFn (pat rep s : List Char) : List Char :=
  replaceAux pat rep s.length s

theorem replaceAux_fuel_irrel (pat rep : List Char) :
    ∀ (f₁ : Nat), ∀ (f₂ : Nat) (s : List Char), s.length ≤ f₁ → s.length ≤ f₂ →
      replaceAux pat rep f₁ s = replaceAux pat rep f₂ s := by
  intro f₁
  induction f₁ with
  | zero =>
    intro f₂ s hs₁ hs₂
    have hs : s = [] := List.length_eq_zero.1 (Nat.le_zero.1 hs₁)
    subst hs
    cases f₂ <;> rfl
  | succ f ih =>
    intro f₂ s hs₁ hs₂
    cases s with
    | nil => cases f₂ <;> rfl
    | cons c rest =>
      cases f₂ with
      | zero => simp at hs₂
      | succ f₂ =>
        simp only [replaceAux]
        by_cases hp : pat ≠ [] ∧ pat.isPrefixOf (c :: rest)
        · rw [if_pos hp, if_pos hp]
          have hplen : 1 ≤ pat.length := by
            cases pat with
            | nil => exact absurd rfl hp.1
            | cons _ _ => simp
          have hlen : rest.length + 1 ≤ f + 1 := by simpa using hs₁
          have hlen₂ : rest.length + 1 ≤ f₂ + 1 := by simpa using hs₂
          have hdl : ((c :: rest).drop pat.length).length ≤ f := by
            rw [List.length_drop]
            simp only [List.length_cons]
            omega
          have hdl₂ : ((c :: rest).drop pat.length).length ≤ f₂ := by
            rw [List.length_drop]
            simp only [List.length_cons]
            omega
          rw [ih f₂ _ hdl hdl₂]
        · rw [if_neg hp, if_neg hp]
          have h1 : rest.length ≤ f := by
            have := hs₁
            simp only [List.length_cons] at this
            omega
          have h2 : rest.length ≤ f₂ := by
            have := hs₂
            simp only [List.length_cons] at this
            omega
          rw [ih f₂ rest h1 h2]

theorem replaceFn_nil (pat rep : List Char) : replaceFn pat rep [] = [] := rfl

theorem replaceFn_match (pat rep s : List Char)
    (hne : pat ≠ []) (hp : pat.isPrefixOf s = true) (hs : s ≠ []) :
    replaceFn pat rep s = rep ++ replaceFn pat rep (s.drop pat.length) := by
  cases s with
  | nil => exact absurd rfl hs
  | cons c rest =>
    show replaceAux pat rep (rest.length + 1) (c :: rest) = _
    simp only [replaceAux]
    rw [if_pos ⟨hne, hp⟩]
    congr 1
    apply replaceAux_fuel_irrel
    · rw [List.length_drop]
      have hplen : 1 ≤ pat.length := by
        cases pat with
        | nil => exact absurd rfl hne
        | cons _ _ => simp
      simp only [List.length_cons]
      omega
    · exact Nat.le_refl _

theorem replaceFn_no_match_head (pat rep : List Char) (c : Char) (rest : List Char)
    (h : ¬ (pat ≠ [] ∧ pat.isPrefixOf (c :: rest) = true)) :
    replaceFn pat rep (c :: rest) = c :: replaceFn pat rep rest := by
  show replaceAux pat rep (rest.length + 1) (c :: rest) = _
  simp only [replaceAux]
  rw [if_neg h]
  rfl

/-- A replacement whose pattern starts with a character absent from the string
changes nothing. -/
theorem replaceFn_of_not_mem (p₀ : Char) (pt rep s : List Char)
    (h : p₀ ∉ s) : replaceFn (p₀ :: pt) rep s = s := by
  induction s with
  | nil => rfl
  | cons c rest ih =>
    have hnp : ¬ ((p₀ :: pt) ≠ [] ∧ (p₀ :: pt).isPrefixOf (c :: rest) = true) := by
      rintro ⟨-, hp⟩
      simp only [List.isPrefixOf, Bool.and_eq_true, beq_iff_eq] at hp
      exact h (by simp [hp.1])
    rw [replaceFn_no_match_head _ _ _ _ hnp,
      ih (fun hh => h (List.mem_cons_of_mem c hh))]

/-- A pattern not containing the separator matches across `a ++ sep :: b`
exactly when it matches inside `a`. -/
theorem isPrefixOf_append_sep (pat : List Char) (a b : List Char)
    (hsp : ' ' ∉ pat) :
    pat.isPrefixOf (a ++ ' ' :: b) = pat.isPrefixOf a := by
  induction pat generalizing a with
  | nil => simp [List.isPrefixOf]
  | cons p pt ih =>
    cases a with
    | nil =>
      have hp : ¬ (p == ' ') = true := by
        intro hh
        exact hsp (by simp [beq_iff_eq.1 hh])
      simp only [List.nil_append, List.isPrefixOf]
      rw [Bool.and_eq_false_iff.2 (Or.inl (by simpa using hp))]
    | cons c a₂ =>
      simp only [List.cons_append, List.isPrefixOf, List.append_eq]
      rw [ih a₂ (fun hh => hsp (List.mem_cons_of_mem _ hh))]

theorem isPrefixOf_length_le (pat s : List Char) (h : pat.isPrefixOf s = true) :
    pat.length ≤ s.length :=
  (List.isPrefixOf_iff_prefix.1 h).length_le

/-- The head case of the separator distribution. -/
theorem replaceFn_sep_head (pat rep b : List Char)
    (hne : pat ≠ []) (hsp : ' ' ∉ pat) :
    replaceFn pat rep (' ' :: b) = ' ' :: replaceFn pat rep b := by
  have hnm : ¬ (pat ≠ [] ∧ pat.isPrefixOf (' ' :: b) = true) := by
    rintro ⟨-, hp⟩
    cases pat with
    | nil => exact hne rfl
    | cons p pt =>
      simp only [List.isPrefixOf, Bool.and_eq_true, beq_iff_eq] at hp
      exact hsp (by simp [hp.1])
  exact replaceFn_no_match_head _ _ _ _ hnm

/-- Replacement with a separator-free pattern distributes over the separator. -/
theorem replaceFn_append_sep (pat rep : List Char)
    (hne : pat ≠ []) (hsp : ' ' ∉ pat) :
    ∀ (n : Nat) (a b : List Char), a.length ≤ n →
      replaceFn pat rep (a ++ ' ' :: b) =
        replaceFn pat rep a ++ ' ' :: replaceFn pat rep b := by
  intro n
  induction n with
  | zero =>
    intro a b ha
    have : a = [] := List.length_eq_zero.1 (Nat.le_zero.1 ha)
    subst this
    rw [List.nil_append, replaceFn_sep_head pat rep b hne hsp, replaceFn_nil]
    rfl
  | succ n ih =>
    intro a b ha
    cases a with
    | nil =>
      rw [List.nil_append, replaceFn_sep_head pat rep b hne hsp, replaceFn_nil]
      rfl
    | cons c a₂ =>
      by_cases hp : pat.isPrefixOf (c :: a₂) = true
      · have hplen : pat.length ≤ (c :: a₂).length := isPrefixOf_length_le _ _ hp
        have hplen1 : 1 ≤ pat.length := by
          cases pat with
          | nil => exact absurd rfl hne
          | cons _ _ => simp
        have hpfull : pat.isPrefixOf ((c :: a₂) ++ ' ' :: b) = true := by
          rw [isPrefixOf_append_sep pat _ b hsp]
          exact hp
        rw [show (c :: a₂) ++ ' ' :: b = c :: (a₂ ++ ' ' :: b) from rfl] at hpfull
        rw [show (c :: a₂) ++ ' ' :: b = c :: (a₂ ++ ' ' :: b) from rfl,
          replaceFn_match pat rep _ hne hpfull (by simp),
          replaceFn_match pat rep (c :: a₂) hne hp (by simp)]
        have hdrop : (c :: (a₂ ++ ' ' :: b)).drop pat.length =
            ((c :: a₂).drop pat.length) ++ ' ' :: b := by
          rw [show c :: (a₂ ++ ' ' :: b) = (c :: a₂) ++ ' ' :: b from rfl]
          exact List.drop_append_of_le_length hplen
        rw [hdrop, ih _ b (by
          rw [List.length_drop]
          simp only [List.length_cons] at ha ⊢
          omega)]
        simp [List.append_assoc]
      · have hnm1 : ¬ (pat ≠ [] ∧ pat.isPrefixOf (c :: (a₂ ++ ' ' :: b)) = true) := by
          rintro ⟨-, hp2⟩
          rw [show c :: (a₂ ++ ' ' :: b) = (c :: a₂) ++ ' ' :: b from rfl,
            isPrefixOf_append_sep pat _ b hsp] at hp2
          exact hp hp2
        have hnm2 : ¬ (pat ≠ [] ∧ pat.isPrefixOf (c :: a₂) = true) :=
          fun hh => hp hh.2
        rw [show (c :: a₂) ++ ' ' :: b = c :: (a₂ ++ ' ' :: b) from rfl,
          replaceFn_no_match_head _ _ _ _ hnm1,
          replaceFn_no_match_head _ _ _ _ hnm2,
          ih a₂ b (by simp only [List.length_cons] at ha; omega)]
        rfl

end Badges

namespace Badges

/-! ## Claim C4, part 2: digits, word shapes and per-word substitution -/

/-- Characters with no special meaning for the shlex lexer. -/
def shPlain (c : Char) : Bool := !shWS c && !isQuote c && c != '\\'

/-- A plain word: nonempty, free of tokenizer-special characters and of the
placeholder marker. -/
def plainWord (w : String) : Bool :=
  !w.data.isEmpty && w.data.all (fun c => shPlain c && c != '?')

/-- The value of a decimal digit character. -/
def digitVal (c : Char) : Option Nat :=
  if c = '0' then some 0 else if c = '1' then some 1 else if c = '2' then some 2
  else if c = '3' then some 3 else if c = '4' then some 4 else if c = '5' then some 5
  else if c = '6' then some 6 else if c = '7' then some 7 else if c = '8' then some 8
  else if c = '9' then some 9 else none

/-- A single-digit positional placeholder word `?d` and its index. -/
def placeholderWord (w : String) : Option Nat :=
  match w.data with
  | ['?', d] => digitVal d
  | _ => none

/-- What the specification says one template word becomes: plain words are
kept, a placeholder is replaced by the invocation token of its index when
supplied and dropped otherwise. -/
def substWord (args : List String) (w : String) : Option String :=
  match placeholderWord w with
  | some i => args.get? i
  | none => some w

/-- Join words with single spaces (the shape of a shortcut template). -/
def wjoin : List (List Char) → List Char
  | [] => []
  | [w] => w
  | w :: ws => w ++ ' ' :: wjoin ws

/-- The whole substitution loop applied to a single word. -/
def substFold (ps : List (Nat × String)) (w : List Char) : List Char :=
  ps.foldl (fun w ia => replaceFn ('?' :: pyNatStr ia.1) ia.2.data w) w

theorem digitChar_spec (n : Nat) :
    shPlain (digitChar n) = true ∧ digitChar n ≠ '?' ∧ digitChar n ≠ ' ' := by
  rcases n with _|_|_|_|_|_|_|_|_|k
  · decide
  · decide
  · decide
  · decide
  · decide
  · decide
  · decide
  · decide
  · decide
  · show shPlain '9' = true ∧ ('9' : Char) ≠ '?' ∧ ('9' : Char) ≠ ' '
    decide

theorem digitVal_eq_some (c : Char) (k : Nat) (h : digitVal c = some k) :
    c = digitChar k ∧ k < 10 := by
  unfold digitVal at h
  split_ifs at h <;> injection h with hk <;> subst hk <;> simp_all [digitChar]

theorem digitVal_digitChar (k : Nat) (hk : k < 10) :
    digitVal (digitChar k) = some k := by
  rcases k with _|_|_|_|_|_|_|_|_|_|k
  · decide
  · decide
  · decide
  · decide
  · decide
  · decide
  · decide
  · decide
  · decide
  · decide
  · omega

theorem mem_natReprAux (fuel : Nat) :
    ∀ (n : Nat) (c : Char), c ∈ natReprAux fuel n → ∃ m, c = digitChar m := by
  induction fuel with
  | zero => intro n c hc; simp [natReprAux] at hc
  | succ fuel ih =>
    intro n c hc
    by_cases h10 : n < 10
    · simp [natReprAux, h10] at hc
      exact ⟨n, hc⟩
    · simp only [natReprAux, if_neg h10, List.mem_append] at hc
      rcases hc with hc | hc
      · exact ih _ _ hc
      · exact ⟨n % 10, by simpa using hc⟩

theorem space_not_mem_pyNatStr (n : Nat) : ' ' ∉ pyNatStr n := by
  intro hm
  obtain ⟨m, hm2⟩ := mem_natReprAux (n + 1) n ' ' hm
  exact (digitChar_spec m).2.2 hm2.symm

theorem pyNatStr_lt_10 (n : Nat) (h : n < 10) : pyNatStr n = [digitChar n] := by
  simp [pyNatStr, natReprAux, h]

theorem natReprAux_ne_nil (fuel n : Nat) (h : 1 ≤ fuel) :
    natReprAux fuel n ≠ [] := by
  cases fuel with
  | zero => omega
  | succ fuel =>
    by_cases h10 : n < 10
    · simp [natReprAux, h10]
    · simp [natReprAux, h10]

theorem pyNatStr_two_le (n : Nat) (h : 10 ≤ n) : 2 ≤ (pyNatStr n).length := by
  have h10 : ¬ n < 10 := by omega
  show 2 ≤ (natReprAux (n + 1) n).length
  rw [show natReprAux (n + 1) n =
    natReprAux n (n / 10) ++ [digitChar (n % 10)] by simp [natReprAux, h10]]
  rw [List.length_append]
  have hne := natReprAux_ne_nil n (n / 10) (by omega)
  have : 1 ≤ (natReprAux n (n / 10)).length := by
    cases hl : natReprAux n (n / 10) with
    | nil => exact absurd hl hne
    | cons _ _ => simp
  simp
  omega

theorem plainWord_no_question (a : String) (h : plainWord a = true) :
    '?' ∉ a.data := by
  intro hm
  simp only [plainWord, Bool.and_eq_true, List.all_eq_true] at h
  have := h.2 '?' hm
  simp at this

/-- Substitution distributes over the word join. -/
theorem replaceFn_wjoin (pat rep : List Char) (hne : pat ≠ []) (hsp : ' ' ∉ pat) :
    ∀ ws : List (List Char),
      replaceFn pat rep (wjoin ws) = wjoin (ws.map (replaceFn pat rep)) := by
  intro ws
  induction ws with
  | nil => rfl
  | cons w ws ih =>
    cases ws with
    | nil => rfl
    | cons w₂ ws₂ =>
      show replaceFn pat rep (w ++ ' ' :: wjoin (w₂ :: ws₂)) = _
      rw [replaceFn_append_sep pat rep hne hsp w.length w _ (Nat.le_refl _), ih]
      rfl

/-- The full substitution loop over a joined template acts word by word. -/
theorem foldl_replace_wjoin :
    ∀ (ps : List (Nat × String)) (ws : List (List Char)),
      ps.foldl (fun s ia => replaceFn ('?' :: pyNatStr ia.1) ia.2.data s)
        (wjoin ws) = wjoin (ws.map (substFold ps)) := by
  intro ps
  induction ps with
  | nil =>
    intro ws
    have hmap : ws.map (substFold []) = ws := by
      induction ws with
      | nil => rfl
      | cons w ws ih => rw [List.map_cons, ih]; rfl
    rw [hmap]
    rfl
  | cons ia ps ih =>
    intro ws
    rw [List.foldl_cons,
      replaceFn_wjoin ('?' :: pyNatStr ia.1) ia.2.data (by simp)
        (by
          intro hm
          rcases List.mem_cons.1 hm with hm | hm
          · exact absurd hm.symm (by decide)
          · exact space_not_mem_pyNatStr ia.1 hm) ws,
      ih]
    rw [List.map_map]
    rfl

/-- A word without the placeholder marker is untouched by the whole loop. -/
theorem substFold_plain (ps : List (Nat × String)) (w : List Char)
    (hw : '?' ∉ w) : substFold ps w = w := by
  induction ps with
  | nil => rfl
  | cons ia ps ih =>
    show substFold ps (replaceFn ('?' :: pyNatStr ia.1) ia.2.data w) = w
    rw [replaceFn_of_not_mem '?' _ _ w hw, ih]

end Badges

namespace Badges

/-! ## Claim C4, part 3: the substitution loop on a placeholder word -/

/-- The step for an index other than the placeholder digit does not touch a
single-digit placeholder word. -/
theorem replaceFn_placeholder_other (k : Nat) (rep : List Char)
    (d : Char) (dv : Nat) (hd : digitVal d = some dv) (hk : k ≠ dv) :
    replaceFn ('?' :: pyNatStr k) rep ['?', d] = ['?', d] := by
  obtain ⟨hdc, hdv10⟩ := digitVal_eq_some d dv hd
  have hdq : d ≠ '?' := by
    rw [hdc]
    exact (digitChar_spec dv).2.1
  by_cases hk10 : k < 10
  · rw [pyNatStr_lt_10 k hk10]
    have h1 : ¬ (('?' :: [digitChar k] : List Char) ≠ [] ∧
        ('?' :: [digitChar k]).isPrefixOf ['?', d] = true) := by
      rintro ⟨-, hp⟩
      simp only [List.isPrefixOf, Bool.and_eq_true, beq_iff_eq] at hp
      have : digitVal d = some k := by
        rw [← hp.2.1, digitVal_digitChar k hk10]
      rw [hd] at this
      exact hk (Option.some_injective _ this).symm
    have h2 : ¬ (('?' :: [digitChar k] : List Char) ≠ [] ∧
        ('?' :: [digitChar k]).isPrefixOf [d] = true) := by
      rintro ⟨-, hp⟩
      simp only [List.isPrefixOf, Bool.and_eq_true, beq_iff_eq] at hp
      exact hdq hp.1.symm
    rw [replaceFn_no_match_head _ _ _ _ h1, replaceFn_no_match_head _ _ _ _ h2,
      replaceFn_nil]
  · have hlen : 2 ≤ (pyNatStr k).length := pyNatStr_two_le k (by omega)
    have h1 : ¬ (('?' :: pyNatStr k : List Char) ≠ [] ∧
        ('?' :: pyNatStr k).isPrefixOf ['?', d] = true) := by
      rintro ⟨-, hp⟩
      have := isPrefixOf_length_le _ _ hp
      simp only [List.length_cons, List.length_nil] at this
      omega
    have h2 : ¬ (('?' :: pyNatStr k : List Char) ≠ [] ∧
        ('?' :: pyNatStr k).isPrefixOf [d] = true) := by
      rintro ⟨-, hp⟩
      have := isPrefixOf_length_le _ _ hp
      simp only [List.length_cons, List.length_nil] at this
      omega
    rw [replaceFn_no_match_head _ _ _ _ h1, replaceFn_no_match_head _ _ _ _ h2,
      replaceFn_nil]

/-- The step at the placeholder digit replaces the whole word. -/
theorem replaceFn_placeholder_hit (rep : List Char)
    (d : Char) (dv : Nat) (hd : digitVal d = some dv) :
    replaceFn ('?' :: pyNatStr dv) rep ['?', d] = rep := by
  obtain ⟨hdc, hdv10⟩ := digitVal_eq_some d dv hd
  have hpat : pyNatStr dv = [d] := by
    rw [pyNatStr_lt_10 dv hdv10, ← hdc]
  rw [hpat]
  rw [replaceFn_match _ _ _ (by simp)
    (by simp [List.isPrefixOf]) (by simp)]
  simp [replaceFn_nil]

/-- Folding the numbered substitutions (numbered from `k`) over a single-digit
placeholder word: the token at the placeholder index is substituted when it
exists, otherwise the word survives the whole loop unchanged. -/
theorem substFold_placeholder (d : Char) (dv : Nat) (hd : digitVal d = some dv) :
    ∀ (args : List String) (k : Nat),
      (∀ a ∈ args, plainWord a = true) →
      substFold (pyEnumFrom k args) ['?', d] =
        if k ≤ dv then
          match args.get? (dv - k) with
          | some a => a.data
          | none => ['?', d]
        else ['?', d] := by
  intro args
  induction args with
  | nil =>
    intro k hargs
    show (['?', d] : List Char) = _
    by_cases hk : k ≤ dv <;> simp [hk]
  | cons a args ih =>
    intro k hargs
    have ha := hargs a (List.mem_cons_self _ _)
    show substFold (pyEnumFrom (k + 1) args)
      (replaceFn ('?' :: pyNatStr k) a.data ['?', d]) = _
    by_cases hk : k = dv
    · subst hk
      rw [replaceFn_placeholder_hit a.data d k hd,
        substFold_plain _ _ (plainWord_no_question a ha)]
      have h0 : k ≤ k := Nat.le_refl k
      rw [if_pos h0]
      simp
    · rw [replaceFn_placeholder_other k a.data d dv hd hk,
        ih (k + 1) (fun x hx => hargs x (List.mem_cons_of_mem _ hx))]
      by_cases hkd : k ≤ dv
      · have hk1 : k + 1 ≤ dv := by omega
        rw [if_pos hk1, if_pos hkd]
        have hsub : dv - k = (dv - (k + 1)) + 1 := by omega
        rw [hsub]
        rfl
      · rw [if_neg (by omega : ¬ k + 1 ≤ dv), if_neg hkd]

end Badges

namespace Badges

/-! ## Claim C4, part 4: the tokenizer on space-joined plain words -/

theorem shPlain_elim (c : Char) (h : shPlain c = true) :
    shWS c = false ∧ isQuote c = false ∧ (c == '\\') = false := by
  simp only [shPlain, Bool.and_eq_true, Bool.not_eq_true', bne_iff_ne] at h
  exact ⟨h.1.1, h.1.2, by simp [h.2]⟩

/-- In word state, a run of plain characters is appended to the token. -/
theorem shlexCore_plain_word (cs : List Char) (quoted : Bool) (acc : List String) :
    ∀ (w tok : List Char), (∀ c ∈ w, shPlain c = true) →
      shlexCore (w ++ cs) ShState.word tok quoted acc =
        shlexCore cs ShState.word (tok ++ w) quoted acc := by
  intro w
  induction w with
  | nil => intro tok h; simp
  | cons c w ih =>
    intro tok h
    obtain ⟨hws, hqt, hbs⟩ := shPlain_elim c (h c (List.mem_cons_self _ _))
    show shlexCore (c :: (w ++ cs)) ShState.word tok quoted acc = _
    simp only [shlexCore]
    rw [if_neg (by simp [hws]), if_neg (by simp [hqt]), if_neg (by simp [hbs]),
      ih (tok ++ [c]) (fun x hx => h x (List.mem_cons_of_mem _ hx))]
    simp [List.append_assoc]

/-- The shlex lexer splits a space-join of nonempty plain words into exactly
those words. -/
theorem shlexCore_wjoin :
    ∀ (ws : List (List Char)) (acc : List String),
      (∀ w ∈ ws, w ≠ [] ∧ ∀ c ∈ w, shPlain c = true) →
      shlexCore (wjoin ws) ShState.ws [] false acc =
        Except.ok (acc.reverse ++ ws.map (fun w => String.mk w)) := by
  intro ws
  induction ws with
  | nil => intro acc h; simp [wjoin, shlexCore]
  | cons w ws ih =>
    intro acc h
    obtain ⟨hne, hpl⟩ := h w (List.mem_cons_self _ _)
    obtain ⟨c, w₂, rfl⟩ : ∃ c w₂, w = c :: w₂ := by
      cases w with
      | nil => exact absurd rfl hne
      | cons c w₂ => exact ⟨c, w₂, rfl⟩
    obtain ⟨hws, hqt, hbs⟩ := shPlain_elim c (hpl c (List.mem_cons_self _ _))
    have hpl₂ : ∀ x ∈ w₂, shPlain x = true :=
      fun x hx => hpl x (List.mem_cons_of_mem _ hx)
    cases ws with
    | nil =>
      show shlexCore (c :: w₂) ShState.ws [] false acc = _
      simp only [shlexCore]
      rw [if_neg (by simp [hws]), if_neg (by simp [hbs]), if_neg (by simp [hqt])]
      simp only [List.nil_append]
      rw [show shlexCore w₂ ShState.word [c] false acc =
          shlexCore (w₂ ++ []) ShState.word [c] false acc by rw [List.append_nil]]
      rw [shlexCore_plain_word [] false acc w₂ [c] hpl₂]
      simp [shlexCore, List.reverse_cons]
    | cons w₃ ws₃ =>
      show shlexCore ((c :: w₂) ++ ' ' :: wjoin (w₃ :: ws₃)) ShState.ws [] false acc = _
      simp only [List.cons_append, shlexCore]
      rw [if_neg (by simp [hws]), if_neg (by simp [hbs]), if_neg (by simp [hqt])]
      simp only [List.append_eq, List.nil_append]
      rw [shlexCore_plain_word (' ' :: wjoin (w₃ :: ws₃)) false acc w₂ [c] hpl₂]
      show shlexCore (' ' :: wjoin (w₃ :: ws₃)) ShState.word (c :: w₂) false acc = _
      simp only [shlexCore]
      rw [if_pos (by decide : shWS ' ' = true), if_neg (by simp)]
      rw [ih (String.mk (c :: w₂) :: acc)
        (fun x hx => h x (List.mem_cons_of_mem _ hx))]
      simp [List.reverse_cons, List.append_assoc]

/-- Running `shlex.split` on a space-join of nonempty plain words yields exactly them. -/
theorem shlexSplit_wjoin (ws : List (List Char))
    (h : ∀ w ∈ ws, w ≠ [] ∧ ∀ c ∈ w, shPlain c = true) :
    shlexSplit (String.mk (wjoin ws)) =
      Except.ok (ws.map (fun w => String.mk w)) := by
  show shlexCore (wjoin ws) ShState.ws [] false [] = _
  rw [shlexCore_wjoin ws [] h]
  rfl

end Badges

namespace Badges

/-! ## Claim C4, part 5: the expansion theorem, its counterexample and witness -/

theorem expandTemplate_data :
    ∀ (ps : List (Nat × String)) (s : String),
      (ps.foldl (fun c ia => strReplace c (String.mk ('?' :: pyNatStr ia.1)) ia.2)
        s).data =
      ps.foldl (fun l ia => replaceFn ('?' :: pyNatStr ia.1) ia.2.data l) s.data := by
  intro ps
  induction ps with
  | nil => intro s; rfl
  | cons ia ps ih =>
    intro s
    rw [List.foldl_cons, List.foldl_cons, ih]
    rfl

theorem placeholderWord_inv (w : String) (dv : Nat)
    (h : placeholderWord w = some dv) :
    ∃ d, w.data = ['?', d] ∧ digitVal d = some dv := by
  unfold placeholderWord at h
  split at h
  · next d heq => exact ⟨d, heq, h⟩
  · cases h

theorem plainWord_elim (w : String) (h : plainWord w = true) :
    w.data ≠ [] ∧ ∀ c ∈ w.data, shPlain c = true ∧ c ≠ '?' := by
  simp only [plainWord, Bool.and_eq_true, List.all_eq_true] at h
  constructor
  · intro hnil
    rw [hnil] at h
    simp at h
  · intro c hc
    have := h.2 c hc
    simp only [Bool.and_eq_true, bne_iff_ne] at this
    exact this

/-- The expanded form of one admissible template word: a nonempty token of
plain characters, and the drop-if-it-starts-with-the-marker rule applied to it
agrees with the specified `substWord`. -/
theorem substFold_word_spec (args : List String)
    (hargs : ∀ a ∈ args, plainWord a = true)
    (w : String) (hw : plainWord w = true ∨ (placeholderWord w).isSome = true) :
    (substFold (pyEnum args) w.data ≠ [] ∧
      (∀ c ∈ substFold (pyEnum args) w.data, shPlain c = true)) ∧
    ((strPrefixB "?" (String.mk (substFold (pyEnum args) w.data)) = false ∧
        substWord args w = some (String.mk (substFold (pyEnum args) w.data))) ∨
      (strPrefixB "?" (String.mk (substFold (pyEnum args) w.data)) = true ∧
        substWord args w = none)) := by
  rcases hw with hw | hw
  · have hq := plainWord_no_question w hw
    obtain ⟨hne, hch⟩ := plainWord_elim w hw
    have hfold : substFold (pyEnum args) w.data = w.data := substFold_plain _ _ hq
    rw [hfold]
    have hph : placeholderWord w = none := by
      unfold placeholderWord
      split
      · next d heq => exact absurd (by rw [heq]; simp) hq
      · rfl
    have hsw : substWord args w = some w := by
      unfold substWord
      rw [hph]
    refine ⟨⟨hne, fun c hc => (hch c hc).1⟩, Or.inl ⟨?_, ?_⟩⟩
    · obtain ⟨c, w₂, hwd⟩ : ∃ c w₂, w.data = c :: w₂ := by
        cases hd : w.data with
        | nil => exact absurd hd hne
        | cons c w₂ => exact ⟨c, w₂, rfl⟩
      rw [hwd]
      have hcq : c ≠ '?' := (hch c (by rw [hwd]; simp)).2
      simp [strPrefixB, List.isPrefixOf]
      exact fun hh => hcq hh.symm
    · rw [hsw]
  · obtain ⟨dv, hdv⟩ := Option.isSome_iff_exists.1 hw
    obtain ⟨d, hwd, hd⟩ := placeholderWord_inv w dv hdv
    obtain ⟨hdc, hdv10⟩ := digitVal_eq_some d dv hd
    have hsw : substWord args w = args.get? dv := by
      unfold substWord
      rw [hdv]
    have hfold : substFold (pyEnum args) w.data =
        match args.get? dv with
        | some a => a.data
        | none => ['?', d] := by
      rw [hwd]
      unfold pyEnum
      rw [substFold_placeholder d dv hd args 0 hargs]
      rw [if_pos (Nat.zero_le dv), Nat.sub_zero]
    cases hget : args.get? dv with
    | some a =>
      have ha : plainWord a = true := hargs a (List.get?_mem hget)
      obtain ⟨hane, hach⟩ := plainWord_elim a ha
      have hfa : substFold (pyEnum args) w.data = a.data := by
        rw [hfold, hget]
      rw [hfa]
      refine ⟨⟨hane, fun c hc => (hach c hc).1⟩, Or.inl ⟨?_, ?_⟩⟩
      · obtain ⟨c, w₂, hda⟩ : ∃ c w₂, a.data = c :: w₂ := by
          cases hd2 : a.data with
          | nil => exact absurd hd2 hane
          | cons c w₂ => exact ⟨c, w₂, rfl⟩
        rw [hda]
        have hcq : c ≠ '?' := (hach c (by rw [hda]; simp)).2
        simp [strPrefixB, List.isPrefixOf]
        exact fun hh => hcq hh.symm
      · rw [hsw, hget]
    | none =>
      have hfa : substFold (pyEnum args) w.data = ['?', d] := by
        rw [hfold, hget]
      rw [hfa]
      refine ⟨⟨by simp, ?_⟩, Or.inr ⟨?_, ?_⟩⟩
      · intro c hc
        rcases List.mem_cons.1 hc with hc | hc
        · subst hc; decide
        · rcases List.mem_cons.1 hc with hc | hc
          · subst hc
            rw [hdc]
            exact (digitChar_spec dv).1
          · cases hc
      · simp [strPrefixB, List.isPrefixOf]
      · rw [hsw, hget]

/-- C4 amended: on a template that is a space-join of words, each either a
plain word or a standalone single-digit placeholder, and with plain invocation
tokens, the expansion substitutes every placeholder whose index is supplied by
its token, drops every placeholder whose index exceeds the supplied tokens,
and re-tokenizes with the same shlex tokenizer — the result being exactly the
per-word `substWord` projection of the template. -/
theorem C4_shortcut_expansion_on_plain_words (ws args : List String)
    (hws : ∀ w ∈ ws, plainWord w = true ∨ (placeholderWord w).isSome = true)
    (hargs : ∀ a ∈ args, plainWord a = true) :
    expandShortcut args (String.mk (wjoin (ws.map String.data))) =
      Except.ok (ws.filterMap (substWord args)) := by
  have hsubst : (expandTemplate args (String.mk (wjoin (ws.map String.data)))).data
      = wjoin ((ws.map String.data).map (substFold (pyEnum args))) :=
    (expandTemplate_data (pyEnum args)
      (String.mk (wjoin (ws.map String.data)))).trans
      (foldl_replace_wjoin (pyEnum args) (ws.map String.data))
  have hkey := fun w hw => substFold_word_spec args hargs w (hws w hw)
  have htokens : ∀ w₂ ∈ (ws.map String.data).map (substFold (pyEnum args)),
      w₂ ≠ [] ∧ ∀ c ∈ w₂, shPlain c = true := by
    intro w₂ hw₂
    simp only [List.map_map, List.mem_map, Function.comp] at hw₂
    obtain ⟨w, hwmem, rfl⟩ := hw₂
    exact (hkey w hwmem).1
  have hsplit : shlexSplit (expandTemplate args (String.mk (wjoin (ws.map String.data))))
      = Except.ok (((ws.map String.data).map (substFold (pyEnum args))).map
          (fun w => String.mk w)) := by
    show shlexCore (expandTemplate args (String.mk (wjoin (ws.map String.data)))).data
      ShState.ws [] false [] = _
    rw [hsubst, shlexCore_wjoin _ [] htokens]
    rfl
  unfold expandShortcut
  rw [hsplit]
  have hfin : ∀ l : List String,
      (∀ w ∈ l,
        (strPrefixB "?" (String.mk (substFold (pyEnum args) w.data)) = false ∧
          substWord args w = some (String.mk (substFold (pyEnum args) w.data))) ∨
        (strPrefixB "?" (String.mk (substFold (pyEnum args) w.data)) = true ∧
          substWord args w = none)) →
      (l.map (fun w => String.mk (substFold (pyEnum args) w.data))).filter
        (fun a => !strPrefixB "?" a) = l.filterMap (substWord args) := by
    intro l
    induction l with
    | nil => intro _; rfl
    | cons w l ih =>
      intro hl
      rcases hl w (List.mem_cons_self _ _) with ⟨hpf, hsw⟩ | ⟨hpf, hsw⟩
      · simp only [List.map_cons, List.filter_cons, hpf, List.filterMap_cons, hsw,
          Bool.not_false, if_true]
        rw [ih (fun x hx => hl x (List.mem_cons_of_mem _ hx))]
      · simp only [List.map_cons, List.filter_cons, hpf, List.filterMap_cons, hsw,
          Bool.not_true, Bool.false_eq_true, if_false]
        rw [ih (fun x hx => hl x (List.mem_cons_of_mem _ hx))]
  have hmaps : (((ws.map String.data).map (substFold (pyEnum args))).map
      (fun w => String.mk w)) =
      ws.map (fun w => String.mk (substFold (pyEnum args) w.data)) := by
    simp [List.map_map, Function.comp]
  rw [hmaps]
  show Except.ok ((ws.map (fun w => String.mk (substFold (pyEnum args) w.data))).filter
      (fun a => !strPrefixB "?" a)) = Except.ok (ws.filterMap (substWord args))
  rw [hfin ws (fun w hw => (hkey w hw).2)]

/-- C4 counterexample: a placeholder embedded inside a larger token is NOT
dropped when its index exceeds the supplied tokens — expanding the template
`deploy --opt=?1` with the bare invocation `alias` leaves the literal
placeholder inside the final token list. -/
theorem C4_counterexample :
    expandShortcut ["alias"] "deploy --opt=?1" =
      Except.ok ["deploy", "--opt=?1"] ∧
    ("?1" : String).data <:+: ("--opt=?1" : String).data := by
  constructor
  · decide
  · decide

theorem C4_shortcut_expansion_on_plain_words_witness :
    expandShortcut ["alias", "staging"]
      (String.mk (wjoin (["deploy", "?1", "--force"].map String.data))) =
      Except.ok ["deploy", "staging", "--force"] ∧
    expandShortcut ["alias"]
      (String.mk (wjoin (["deploy", "?1", "--force"].map String.data))) =
      Except.ok ["deploy", "--force"] := by
  have h1 := C4_shortcut_expansion_on_plain_words ["deploy", "?1", "--force"]
    ["alias", "staging"] (by decide) (by decide)
  have h2 := C4_shortcut_expansion_on_plain_words ["deploy", "?1", "--force"]
    ["alias"] (by decide) (by decide)
  exact ⟨h1.trans (by decide), h2.trans (by decide)⟩

end Badges

